import Mathlib

/-!
Verification of the block-synchronization core (download manager and
short-range helper) of a sharded blockchain node, against its Go sources.

The repository file `api/service/stagedstreamsync/block_manager.go` contains
two concatenated variants of the `getBlocksManager` structure; they are
embedded below as the namespaces `V1` (first variant, the one carrying a
`bdd` download-details map and whose `HandleRequestError` has the
result-queue scrub commented out) and `V2` (second variant, the one whose
`HandleRequestResult` feeds the result queue and signals `resultC`).

Machine integers (`uint64` heights, `int` counters) are modelled as `Nat`
(or `Int` where Go's arithmetic can go negative); heights never approach
the 64-bit boundary in any state reachable by the sync protocol, so wrap
is not modelled.
-/

set_option autoImplicit false

/-- Stream identifier: an opaque short string naming one peer stream. -/
abbrev StreamID := String

/-- Block: opaque payload; only the accessors used by the sync core are kept. -/
structure Block where
  number : Nat
  hash : Nat
  parentHash : Nat
deriving DecidableEq

/-- One received block together with the stream it came from. -/
structure blockResult where
  block : Block
  stid : StreamID
deriving DecidableEq

def blockResult.getBlockNumber (r : blockResult) : Nat :=
  r.block.number

/-- Provenance of a downloaded block (loop id and stream id). -/
structure BlockDownloadDetails where
  loopID : Int
  streamID : StreamID
deriving DecidableEq

/-- Go error values, with enough structure for `errors.As` chains: the
empty-signature-verification error, plain errors, and wrapped errors. -/
inductive GoErr where
  | emptySigVerify : GoErr
  | errorNew (msg : String) : GoErr
  | wrap (inner : GoErr) (msg : String) : GoErr
deriving DecidableEq

/-- `errors.As(err, &emptySigVerifyErr)`: the error chain reaches the
empty-signature-verification error. -/
def errAsEmptySigVerify : GoErr → Bool
  | GoErr.emptySigVerify => true
  | GoErr.errorNew _ => false
  | GoErr.wrap inner _ => errAsEmptySigVerify inner

/-- Minimum of a list of naturals, `none` on the empty list. -/
def listMin : List Nat → Option Nat
  | [] => none
  | x :: xs =>
    match listMin xs with
    | none => some x
    | some m => some (min x m)

theorem listMin_eq_none {l : List Nat} : listMin l = none ↔ l = [] := by
  cases l with
  | nil => simp [listMin]
  | cons x xs =>
    simp only [listMin]
    cases listMin xs <;> simp

theorem listMin_mem {l : List Nat} {m : Nat} (h : listMin l = some m) : m ∈ l := by
  induction l generalizing m with
  | nil => simp [listMin] at h
  | cons x xs ih =>
    simp only [listMin] at h
    cases hxs : listMin xs with
    | none => rw [hxs] at h; simp at h; simp [h]
    | some m' =>
      rw [hxs] at h
      simp at h
      rcases Nat.le_total x m' with hle | hle
      · rw [min_eq_left hle] at h; simp [← h]
      · rw [min_eq_right hle] at h
        exact List.mem_cons_of_mem _ (ih (h ▸ hxs))

theorem listMin_le {l : List Nat} {m : Nat} (h : listMin l = some m) :
    ∀ x ∈ l, m ≤ x := by
  induction l generalizing m with
  | nil => simp
  | cons y ys ih =>
    simp only [listMin] at h
    cases hys : listMin ys with
    | none =>
      rw [hys] at h
      simp at h
      rw [listMin_eq_none] at hys
      subst hys
      intro x hx
      simp at hx
      omega
    | some m' =>
      rw [hys] at h
      simp at h
      intro x hx
      rcases List.mem_cons.mp hx with rfl | hx'
      · exact h ▸ min_le_left x m'
      · exact h ▸ le_trans (min_le_right y m') (ih hys x hx')

/-- Modelled from the spec: the `prioritizedNumbers` retry container
(spec section 4.1); its implementation file is not among the provided
sources.  A multiset of heights; `push` admits duplicates; `pop` removes
and returns the smallest element, or returns the sentinel `0` (without
changing the container) when empty. -/
structure prioritizedNumbers where
  elems : List Nat
deriving DecidableEq

def newPrioritizedNumbers : prioritizedNumbers := ⟨[]⟩

def prioritizedNumbers.push (pn : prioritizedNumbers) (bn : Nat) : prioritizedNumbers :=
  ⟨bn :: pn.elems⟩

def prioritizedNumbers.pop (pn : prioritizedNumbers) : Nat × prioritizedNumbers :=
  match listMin pn.elems with
  | none => (0, pn)
  | some m => (m, ⟨pn.elems.erase m⟩)

/-- Modelled from the spec: the result queue (spec section 4.2); its
implementation file is not among the provided sources.  A height-keyed
collection of `blockResult`s; `addBlockResults` pushes each non-nil block,
ignoring a block whose height is already present (first-writer-wins);
`removeResultsByStreamID` removes every entry carrying the given stream id
and returns their heights; `len` is the current size. -/
structure resultQueue where
  results : List blockResult
deriving DecidableEq

def newResultQueue : resultQueue := ⟨[]⟩

def resultQueue.containsBN (rq : resultQueue) (bn : Nat) : Bool :=
  rq.results.any fun r => r.getBlockNumber == bn

def resultQueue.addBlockResults (rq : resultQueue) (blocks : List (Option Block))
    (stid : StreamID) : resultQueue :=
  blocks.foldl (fun acc ob =>
    match ob with
    | none => acc
    | some b => if acc.containsBN b.number then acc else ⟨acc.results ++ [⟨b, stid⟩]⟩) rq

def resultQueue.removeResultsByStreamID (rq : resultQueue) (stid : StreamID) :
    List Nat × resultQueue :=
  ((rq.results.filter (fun r => r.stid == stid)).map blockResult.getBlockNumber,
   ⟨rq.results.filter (fun r => r.stid != stid)⟩)

def resultQueue.len (rq : resultQueue) : Nat :=
  rq.results.length

/-- Go `delete(m, bn)` on a set-valued map, sets represented as lists. -/
def setDelete (s : List Nat) (bn : Nat) : List Nat :=
  s.filter (fun x => x != bn)

/-- Go `m[bn] = struct{}{}` on a set-valued map, sets represented as lists. -/
def setInsert (s : List Nat) (bn : Nat) : List Nat :=
  if bn ∈ s then s else bn :: s

theorem mem_setDelete {s : List Nat} {bn x : Nat} :
    x ∈ setDelete s bn ↔ x ∈ s ∧ x ≠ bn := by
  simp [setDelete, List.mem_filter, bne_iff_ne]

theorem mem_setInsert {s : List Nat} {bn x : Nat} :
    x ∈ setInsert s bn ↔ x = bn ∨ x ∈ s := by
  unfold setInsert
  split
  · next h =>
    constructor
    · exact Or.inr
    · rintro (rfl | hx)
      · exact h
      · exact hx
  · simp

theorem mem_foldl_setDelete {l : List Nat} {s : List Nat} {x : Nat} :
    x ∈ l.foldl setDelete s ↔ x ∈ s ∧ x ∉ l := by
  induction l generalizing s with
  | nil => simp
  | cons y ys ih =>
    simp only [List.foldl_cons, ih, mem_setDelete, List.mem_cons]
    constructor
    · rintro ⟨⟨hs, hne⟩, hys⟩
      exact ⟨hs, by rintro (rfl | h) <;> [exact hne rfl; exact hys h]⟩
    · rintro ⟨hs, hny⟩
      exact ⟨⟨hs, fun h => hny (Or.inl h)⟩, fun h => hny (Or.inr h)⟩

theorem mem_foldl_setInsert {l : List Nat} {s : List Nat} {x : Nat} :
    x ∈ l.foldl setInsert s ↔ x ∈ s ∨ x ∈ l := by
  induction l generalizing s with
  | nil => simp
  | cons y ys ih =>
    simp only [List.foldl_cons, ih, mem_setInsert, List.mem_cons]
    tauto

/-- The ascending list `[lo, lo+1, ..., lo+n-1]`. -/
def rangeFrom (lo : Nat) : Nat → List Nat
  | 0 => []
  | n + 1 => lo :: rangeFrom (lo + 1) n

theorem mem_rangeFrom {lo n x : Nat} :
    x ∈ rangeFrom lo n ↔ lo ≤ x ∧ x < lo + n := by
  induction n generalizing lo with
  | zero => simp [rangeFrom]
  | succ k ih =>
    simp only [rangeFrom, List.mem_cons, ih]
    omega

namespace V1

/-- First variant of `getBlocksManager` (block_manager.go lines 11-213):
carries a per-block download-details map `bdd`.  The `chain` field is kept
as the current head height (`chain.CurrentBlock().NumberU64()`); the `tx`,
`logger`, `lock` and `resultC` channel fields are represented by `curHeight`,
nothing, nothing and the boolean `resultC` (a token pending in the
capacity-1 channel) respectively. -/
structure getBlocksManager where
  curHeight : Nat
  targetBN : Nat
  requesting : List Nat
  processing : List Nat
  retries : prioritizedNumbers
  rq : resultQueue
  bdd : List (Nat × BlockDownloadDetails)
  resultC : Bool
deriving DecidableEq

/-- Go map assignment `bdd[bn] = d`. -/
def bddInsert (bdd : List (Nat × BlockDownloadDetails)) (bn : Nat)
    (d : BlockDownloadDetails) : List (Nat × BlockDownloadDetails) :=
  (bn, d) :: bdd.filter (fun p => p.1 != bn)

/-- The `for _, bn := range bns` loop of the first variant's
`HandleRequestError`: remove from `requesting`, push to `retries`. -/
def removeAndRetryLoop : getBlocksManager → List Nat → getBlocksManager
  | g, [] => g
  | g, bn :: rest =>
    removeAndRetryLoop
      { g with requesting := setDelete g.requesting bn, retries := g.retries.push bn } rest

/-- `HandleRequestError` of the first variant (lines 71-89).  The
result-queue scrub (`removeResultsByStreamID` and the follow-up loop) is
commented out in the source, so only the `bns` loop runs; the `err` and
`streamID` arguments are merely logged. -/
def getBlocksManager.HandleRequestError (gbm : getBlocksManager) (bns : List Nat)
    (_err : GoErr) (_streamID : StreamID) : getBlocksManager :=
  removeAndRetryLoop gbm bns

/-- The indexed `for i, bn := range bns` loop of the first variant's
`HandleRequestResult`; `blockBytes[i]` is a Go slice index, so running past
the end of `blockBytes` is an out-of-range panic, modelled as `none`. -/
def handleRequestResultLoop (blockBytes : List (List Nat)) (loopID : Int)
    (streamID : StreamID) :
    getBlocksManager → List Nat → Nat → Option getBlocksManager
  | g, [], _ => some g
  | g, bn :: rest, i =>
    match blockBytes[i]? with
    | none => none
    | some bytes =>
      let g1 := { g with requesting := setDelete g.requesting bn }
      let g2 :=
        if bytes.length ≤ 1 then
          { g1 with retries := g1.retries.push bn }
        else
          { g1 with processing := setInsert g1.processing bn,
                    bdd := bddInsert g1.bdd bn ⟨loopID, streamID⟩ }
      handleRequestResultLoop blockBytes loopID streamID g2 rest (i + 1)

/-- `HandleRequestResult` of the first variant (lines 92-109): works on raw
block bytes, records download details, and touches neither the result queue
nor `resultC`.  `sigBytes` is accepted and ignored, as in the source. -/
def getBlocksManager.HandleRequestResult (gbm : getBlocksManager) (bns : List Nat)
    (blockBytes : List (List Nat)) (_sigBytes : List (List Nat)) (loopID : Int)
    (streamID : StreamID) : Option getBlocksManager :=
  handleRequestResultLoop blockBytes loopID streamID gbm bns 0

end V1

namespace V2

/-- Second variant of `getBlocksManager` (block_manager.go lines 226-421):
no `bdd` map; `HandleRequestResult` takes decoded blocks.  Field modelling
as in `V1.getBlocksManager`. -/
structure getBlocksManager where
  curHeight : Nat
  targetBN : Nat
  requesting : List Nat
  processing : List Nat
  retries : prioritizedNumbers
  rq : resultQueue
  resultC : Bool
deriving DecidableEq

/-- The `for _, bn := range bns` loop shared by `HandleRequestError`:
remove from `requesting`, push to `retries`. -/
def removeAndRetryLoop : getBlocksManager → List Nat → getBlocksManager
  | g, [] => g
  | g, bn :: rest =>
    removeAndRetryLoop
      { g with requesting := setDelete g.requesting bn, retries := g.retries.push bn } rest

/-- The `for _, bn := range removed` loop run after a result-queue scrub:
remove from `processing`, push to `retries`. -/
def scrubLoop : getBlocksManager → List Nat → getBlocksManager
  | g, [] => g
  | g, bn :: rest =>
    scrubLoop
      { g with processing := setDelete g.processing bn, retries := g.retries.push bn } rest

/-- `HandleRequestError` of the second variant (lines 274-292): moves the
requested heights to `retries` and scrubs the result queue by stream id,
moving the scrubbed heights from `processing` to `retries`.  The `err`
argument is merely logged; the manager holds no stream-pool handle, so no
stream eviction happens here. -/
def getBlocksManager.HandleRequestError (gbm : getBlocksManager) (bns : List Nat)
    (_err : GoErr) (stid : StreamID) : getBlocksManager :=
  let g1 := removeAndRetryLoop gbm bns
  let p := g1.rq.removeResultsByStreamID stid
  scrubLoop { g1 with rq := p.2 } p.1

/-- The indexed `for i, bn := range bns` loop of the second variant's
`HandleRequestResult`; `blocks[i]` is a Go slice index, so running past the
end of `blocks` is an out-of-range panic, modelled as `none`; a `nil` block
pointer is `Option.none` inside the list. -/
def handleRequestResultLoop (blocks : List (Option Block)) :
    getBlocksManager → List Nat → Nat → Option getBlocksManager
  | g, [], _ => some g
  | g, bn :: rest, i =>
    match blocks[i]? with
    | none => none
    | some ob =>
      let g1 := { g with requesting := setDelete g.requesting bn }
      let g2 :=
        match ob with
        | none => { g1 with retries := g1.retries.push bn }
        | some _ => { g1 with processing := setInsert g1.processing bn }
      handleRequestResultLoop blocks g2 rest (i + 1)

/-- `HandleRequestResult` of the second variant (lines 295-312): the loop,
then `rq.addBlockResults(blocks, stid)`, then the non-blocking send on
`resultC` (which always leaves a token pending). -/
def getBlocksManager.HandleRequestResult (gbm : getBlocksManager) (bns : List Nat)
    (blocks : List (Option Block)) (stid : StreamID) : Option getBlocksManager :=
  match handleRequestResultLoop blocks gbm bns 0 with
  | none => none
  | some g1 => some { g1 with rq := g1.rq.addBlockResults blocks stid, resultC := true }

/-- The `for _, res := range inserted` loop of `HandleInsertError`. -/
def deleteProcessingLoop : getBlocksManager → List blockResult → getBlocksManager
  | g, [] => g
  | g, r :: rest =>
    deleteProcessingLoop { g with processing := setDelete g.processing r.getBlockNumber } rest

/-- The `for _, res := range abandoned` loop of `HandleInsertError`:
re-enqueue each abandoned result under its own stream id. -/
def addAbandonedLoop : getBlocksManager → List blockResult → getBlocksManager
  | g, [] => g
  | g, r :: rest =>
    addAbandonedLoop { g with rq := g.rq.addBlockResults [some r.block] r.stid } rest

/-- `HandleInsertError` of the second variant (lines 325-355).  Go evaluates
`results[:n]` and `results[n]` before the `n != len(results)` test, so any
call with `n ≥ len(results)` panics (modelled as `none`). -/
def getBlocksManager.HandleInsertError (gbm : getBlocksManager)
    (results : List blockResult) (n : Nat) : Option getBlocksManager :=
  if n > results.length then none
  else
    match results[n]? with
    | none => none
    | some errResult =>
      let inserted := results.take n
      let abandoned := if n ≠ results.length then results.drop (n + 1) else []
      let g1 := deleteProcessingLoop gbm inserted
      let g2 := addAbandonedLoop g1 abandoned
      let g3 := { g2 with
                    processing := setDelete g2.processing errResult.getBlockNumber,
                    retries := g2.retries.push errResult.getBlockNumber }
      let p := g3.rq.removeResultsByStreamID errResult.stid
      some (scrubLoop { g3 with rq := p.2 } p.1)

/-- `getBatchFromRetries` (lines 372-388): pop up to `cap` times, dropping
the pops at or below the current height; a popped sentinel `0` stops the
loop. -/
def getBatchFromRetriesLoop (curHeight : Nat) :
    prioritizedNumbers → Nat → List Nat × prioritizedNumbers
  | pn, 0 => ([], pn)
  | pn, cap + 1 =>
    let p := pn.pop
    if p.1 = 0 then ([], p.2)
    else if p.1 ≤ curHeight then getBatchFromRetriesLoop curHeight p.2 cap
    else
      let q := getBatchFromRetriesLoop curHeight p.2 cap
      (p.1 :: q.1, q.2)

def getBlocksManager.getBatchFromRetries (gbm : getBlocksManager) (cap : Nat) :
    List Nat × getBlocksManager :=
  let p := getBatchFromRetriesLoop gbm.curHeight gbm.retries cap
  (p.1, { gbm with retries := p.2 })

/-- The inner `for bn <= gbm.targetBN` scan of `getBatchFromUnprocessed`:
the first height at or above `bn`, at most `target`, that is in neither
`requesting` nor `processing`.  The scan advances `bn` by one per step and
stops past `target`, so it runs for at most `target + 1 - bn` steps; that
bound is passed as structural fuel (it never runs out before the loop
condition fails). -/
def innerScan (req proc : List Nat) (target : Nat) : Nat → Nat → Option Nat
  | 0, _ => none
  | fuel + 1, bn =>
    if bn ≤ target then
      if bn ∉ req ∧ bn ∉ proc then some bn
      else innerScan req proc target fuel (bn + 1)
    else none

/-- The outer `for cnt := 0; cnt < cap && bn <= gbm.targetBN; cnt++` loop of
`getBatchFromUnprocessed`; when the inner scan finds `m` the next round
starts at `m + 1`. -/
def outerScan (req proc : List Nat) (target : Nat) : Nat → Nat → List Nat
  | 0, _ => []
  | cap + 1, bn =>
    match innerScan req proc target (target + 1 - bn) bn with
    | some m => m :: outerScan req proc target cap (m + 1)
    | none => []

/-- `getBatchFromUnprocessed` (lines 391-411). -/
def getBlocksManager.getBatchFromUnprocessed (gbm : getBlocksManager) (cap : Nat) :
    List Nat :=
  outerScan gbm.requesting gbm.processing gbm.targetBN cap (gbm.curHeight + 1)

/-- `availableForMoreTasks` (lines 413-415); `softQueueCap` is a package
constant defined outside the provided sources, so it is a parameter here. -/
def getBlocksManager.availableForMoreTasks (gbm : getBlocksManager)
    (softQueueCap : Nat) : Bool :=
  gbm.rq.len < softQueueCap

/-- `addBatchToRequesting` (lines 417-421). -/
def addBatchToRequesting (requesting : List Nat) (bns : List Nat) : List Nat :=
  bns.foldl setInsert requesting

/-- `GetNextBatch` (lines 254-271); `numBlocksByNumPerRequest` and
`softQueueCap` are package constants defined outside the provided sources,
so they are parameters here. -/
def getBlocksManager.GetNextBatch (gbm : getBlocksManager)
    (numBlocksByNumPerRequest softQueueCap : Nat) : List Nat × getBlocksManager :=
  let cap := numBlocksByNumPerRequest
  let p := gbm.getBatchFromRetries cap
  let bns := p.1
  let cap := cap - bns.length
  let g2 := { p.2 with requesting := addBatchToRequesting p.2.requesting bns }
  if g2.availableForMoreTasks softQueueCap then
    let addBNs := g2.getBatchFromUnprocessed cap
    let g3 := { g2 with requesting := addBatchToRequesting g2.requesting addBNs }
    (bns ++ addBNs, g3)
  else (bns, g2)

end V2

/-- The outcome of one `syncProtocol.GetBlockHashes` call made by a
`getHashChain` worker: either the transport returned an error, or it
delivered a hash list from some stream. -/
inductive FetchOutcome where
  | fail (stid : StreamID) : FetchOutcome
  | reply (hashes : List Nat) (stid : StreamID) : FetchOutcome
deriving DecidableEq

/-- Value returned by `doGetBlockHashesRequest` together with the
`RemoveStream` calls it issued. -/
structure HashReqResult where
  value : Option (List Nat × StreamID)
  evicted : List StreamID
deriving DecidableEq

/-- `doGetBlockHashesRequest` (srHelper, lines 160-176): a transport error
is returned as-is with no eviction; a response whose length differs from
`len(bns)` causes `RemoveStream(stid)` and an error return; otherwise the
hashes are returned. -/
def doGetBlockHashesRequest (bns : List Nat) (outcome : FetchOutcome) : HashReqResult :=
  match outcome with
  | FetchOutcome.fail _ => ⟨none, []⟩
  | FetchOutcome.reply hashes stid =>
    if hashes.length ≠ bns.length then ⟨none, [stid]⟩
    else ⟨some (hashes, stid), []⟩

/-- The body of one `getHashChain` worker goroutine (lines 31-47): on error
the response is discarded (nothing recorded); on success
`results.addResult(hashes, stid)` records it. -/
def getHashChainWorkerStep (bns : List Nat) (outcome : FetchOutcome)
    (results : List (List Nat × StreamID)) :
    List (List Nat × StreamID) × List StreamID :=
  let r := doGetBlockHashesRequest bns outcome
  match r.value with
  | none => (results, r.evicted)
  | some v => (results ++ [v], r.evicted)

/-- `getHashChain` (lines 24-63), up to the final `computeLongestHashChain`
call: each worker's outcome is folded through `getHashChainWorkerStep`; the
pair collects the recorded responses and all evicted streams.  The list
`outcomes` fixes one interleaving of the `Concurrency` goroutines. -/
def getHashChain (bns : List Nat) (outcomes : List FetchOutcome) :
    List (List Nat × StreamID) × List StreamID :=
  outcomes.foldl
    (fun acc oc =>
      let p := getHashChainWorkerStep bns oc acc.1
      (p.1, acc.2 ++ p.2))
    ([], [])

/-- `checkPrerequisites` (srHelper, lines 139-144). -/
def checkPrerequisites (numStreams concurrency : Nat) : Option String :=
  if numStreams < concurrency then some "not enough streams" else none

/-- Modelled from the spec: the sync-cycle driver that calls
`checkPrerequisites` before running a cycle is not among the provided
sources (only `checkPrerequisites` itself is).  Per spec section 7, a
prerequisite failure is returned before the cycle starts, so the cycle
does not run. -/
structure CycleOutcome where
  cycleRan : Bool
  err : Option String
deriving DecidableEq

/-- Modelled from the spec: run one sync cycle, first checking
prerequisites; on failure return the error without running the cycle. -/
def runCycleModel (numStreams concurrency : Nat) : CycleOutcome :=
  match checkPrerequisites numStreams concurrency with
  | some e => ⟨false, some e⟩
  | none => ⟨true, none⟩

/-- `blameAllStreams` (srHelper, lines 215-220): do not blame the streams
when the failure is the empty-signature-verification error on the last
block of the batch. -/
def blameAllStreams (blocks : List Block) (errIndex : Int) (err : GoErr) : Bool :=
  if errAsEmptySigVerify err && (errIndex == (blocks.length : Int) - 1) then false
  else true

/-- Spec-side view of one worker outcome: the recorded response, if the
length check passes. -/
def hashSuccess (bns : List Nat) : FetchOutcome → Option (List Nat × StreamID)
  | FetchOutcome.fail _ => none
  | FetchOutcome.reply hashes stid =>
    if hashes.length = bns.length then some (hashes, stid) else none

/-- Spec-side view of one worker outcome: the stream evicted by the length
check, if any. -/
def hashEvict (bns : List Nat) : FetchOutcome → Option StreamID
  | FetchOutcome.fail _ => none
  | FetchOutcome.reply hashes stid =>
    if hashes.length = bns.length then none else some stid

theorem getHashChainWorkerStep_eq (bns : List Nat) (oc : FetchOutcome)
    (results : List (List Nat × StreamID)) :
    getHashChainWorkerStep bns oc results =
      (results ++ (hashSuccess bns oc).toList, (hashEvict bns oc).toList) := by
  cases oc with
  | fail stid => simp [getHashChainWorkerStep, doGetBlockHashesRequest, hashSuccess, hashEvict]
  | reply hashes stid =>
    by_cases h : hashes.length = bns.length <;>
      simp [getHashChainWorkerStep, doGetBlockHashesRequest, hashSuccess, hashEvict, h]

theorem getHashChain_fold (bns : List Nat) (outcomes : List FetchOutcome)
    (acc : List (List Nat × StreamID) × List StreamID) :
    outcomes.foldl
      (fun acc oc =>
        let p := getHashChainWorkerStep bns oc acc.1
        (p.1, acc.2 ++ p.2)) acc =
      (acc.1 ++ outcomes.filterMap (hashSuccess bns),
       acc.2 ++ outcomes.filterMap (hashEvict bns)) := by
  induction outcomes generalizing acc with
  | nil => simp
  | cons oc rest ih =>
    rw [List.foldl_cons, ih]
    simp only [getHashChainWorkerStep_eq, List.filterMap_cons]
    cases h1 : hashSuccess bns oc <;> cases h2 : hashEvict bns oc <;>
      simp [h1, h2, List.append_assoc]

theorem getHashChain_eq (bns : List Nat) (outcomes : List FetchOutcome) :
    getHashChain bns outcomes =
      (outcomes.filterMap (hashSuccess bns), outcomes.filterMap (hashEvict bns)) := by
  simp [getHashChain, getHashChain_fold]

/-- C9: in `getHashChain`, every per-peer hash response whose length differs
from `len(bns)` causes the responding stream to be evicted and the response
to be discarded — it is never recorded in the hash-chain results; responses
of the correct length are recorded. -/
theorem getHashChain_length_check_spec (bns : List Nat) (outcomes : List FetchOutcome)
    (hashes : List Nat) (stid : StreamID)
    (hmem : FetchOutcome.reply hashes stid ∈ outcomes) :
    (hashes.length ≠ bns.length →
      stid ∈ (getHashChain bns outcomes).2 ∧ (hashes, stid) ∉ (getHashChain bns outcomes).1)
    ∧ (hashes.length = bns.length → (hashes, stid) ∈ (getHashChain bns outcomes).1) := by
  rw [getHashChain_eq]
  constructor
  · intro hne
    constructor
    · exact List.mem_filterMap.mpr
        ⟨FetchOutcome.reply hashes stid, hmem, by simp [hashEvict, hne]⟩
    · intro hmem'
      rcases List.mem_filterMap.mp hmem' with ⟨oc, _, hoc⟩
      cases oc with
      | fail s => simp [hashSuccess] at hoc
      | reply h' s' =>
        simp only [hashSuccess] at hoc
        split at hoc
        · next hlen =>
          rcases Option.some_inj.mp hoc with heq
          have : h' = hashes := congrArg Prod.fst heq
          exact hne (this ▸ hlen)
        · exact Option.noConfusion hoc
  · intro hlen
    exact List.mem_filterMap.mpr
      ⟨FetchOutcome.reply hashes stid, hmem, by simp [hashSuccess, hlen]⟩

/-- Witness for C9 at a concrete input: a two-element window, one
wrong-length reply (evicted, not recorded) and one correct-length reply
(recorded). -/
theorem getHashChain_length_check_spec_witness :
    ("a" ∈ (getHashChain [1, 2] [FetchOutcome.reply [5] "a", FetchOutcome.reply [7, 8] "b"]).2
      ∧ ([5], "a") ∉ (getHashChain [1, 2] [FetchOutcome.reply [5] "a", FetchOutcome.reply [7, 8] "b"]).1)
    ∧ ([7, 8], "b") ∈ (getHashChain [1, 2] [FetchOutcome.reply [5] "a", FetchOutcome.reply [7, 8] "b"]).1 :=
  ⟨(getHashChain_length_check_spec [1, 2] _ [5] "a" (by decide)).1 (by decide),
   (getHashChain_length_check_spec [1, 2] _ [7, 8] "b" (by decide)).2 (by decide)⟩

/-- C10: `checkPrerequisites` fails exactly when the stream pool reports
fewer streams than the configured concurrency, and (per the spec-modelled
driver) the sync cycle does not run in that case. -/
theorem checkPrerequisites_spec (numStreams concurrency : Nat) :
    ((checkPrerequisites numStreams concurrency).isSome = true ↔ numStreams < concurrency)
    ∧ (numStreams < concurrency →
        (runCycleModel numStreams concurrency).cycleRan = false) := by
  constructor
  · by_cases h : numStreams < concurrency <;> simp [checkPrerequisites, h]
  · intro h
    simp [runCycleModel, checkPrerequisites, h]

/-- Witness for C10 at a concrete input: one stream, concurrency two. -/
theorem checkPrerequisites_spec_witness :
    ((checkPrerequisites 1 2).isSome = true ↔ 1 < 2)
    ∧ (runCycleModel 1 2).cycleRan = false :=
  ⟨(checkPrerequisites_spec 1 2).1, (checkPrerequisites_spec 1 2).2 (by decide)⟩

/-- C6: `blameAllStreams` returns `false` exactly when the error is the
empty-signature-verification error and the failing index is the last block
of the batch; it returns `true` in every other case. -/
theorem blameAllStreams_spec (blocks : List Block) (errIndex : Int) (err : GoErr) :
    (errAsEmptySigVerify err = true ∧ errIndex = (blocks.length : Int) - 1 →
      blameAllStreams blocks errIndex err = false)
    ∧ (errAsEmptySigVerify err = false ∨ errIndex ≠ (blocks.length : Int) - 1 →
      blameAllStreams blocks errIndex err = true) := by
  constructor
  · rintro ⟨h1, h2⟩
    simp [blameAllStreams, h1, h2]
  · rintro (h | h) <;> simp [blameAllStreams, h]

/-- Witness for C6 at concrete inputs: a tail signature failure is not
blamed; a non-tail one is. -/
theorem blameAllStreams_spec_witness :
    blameAllStreams [⟨1, 10, 9⟩, ⟨2, 11, 10⟩] 1 GoErr.emptySigVerify = false
    ∧ blameAllStreams [⟨1, 10, 9⟩, ⟨2, 11, 10⟩] 0 GoErr.emptySigVerify = true :=
  ⟨(blameAllStreams_spec [⟨1, 10, 9⟩, ⟨2, 11, 10⟩] 1 GoErr.emptySigVerify).1
      ⟨by decide, by decide⟩,
   (blameAllStreams_spec [⟨1, 10, 9⟩, ⟨2, 11, 10⟩] 0 GoErr.emptySigVerify).2
      (Or.inr (by decide))⟩

/-- C5: `HandleInsertError` evaluates `results[:n]` and `results[n]` before
its internal `n != len(results)` test, so the call succeeds (all slice
indices in bounds) exactly when `n < len(results)`; in particular
`n == len(results)` indexes out of range. -/
theorem handleInsertError_isSome_iff (g : V2.getBlocksManager)
    (results : List blockResult) (n : Nat) :
    (V2.getBlocksManager.HandleInsertError g results n).isSome = true ↔
      n < results.length := by
  unfold V2.getBlocksManager.HandleInsertError
  by_cases h : n > results.length
  · simp only [if_pos h, Option.isSome_none]
    constructor
    · intro hfalse
      exact absurd hfalse (by simp)
    · omega
  · simp only [if_neg h]
    rcases Nat.lt_or_ge n results.length with hlt | hge
    · rw [List.getElem?_eq_getElem hlt]
      simp [hlt]
    · have hn : results.length = n := by omega
      have : results[n]? = none := by
        rw [List.getElem?_eq_none]
        omega
      rw [this]
      simp
      omega

theorem setDelete_eq_self {s : List Nat} {bn : Nat} (h : bn ∉ s) :
    setDelete s bn = s := by
  unfold setDelete
  rw [List.filter_eq_self]
  intro x hx
  simp only [bne_iff_ne, ne_eq, decide_eq_true_eq]
  rintro rfl
  exact h hx

theorem foldl_setDelete_eq_self {l : List Nat} {s : List Nat}
    (h : ∀ b ∈ l, b ∉ s) : l.foldl setDelete s = s := by
  induction l with
  | nil => rfl
  | cons b rest ih =>
    rw [List.foldl_cons, setDelete_eq_self (h b (List.mem_cons_self b rest))]
    exact ih fun x hx => h x (List.mem_cons_of_mem b hx)

theorem removeAndRetryLoopV1_eq (g : V1.getBlocksManager) (bns : List Nat) :
    V1.removeAndRetryLoop g bns =
      { g with requesting := bns.foldl setDelete g.requesting,
               retries := ⟨bns.reverse ++ g.retries.elems⟩ } := by
  induction bns generalizing g with
  | nil => simp [V1.removeAndRetryLoop]
  | cons bn rest ih =>
    rw [V1.removeAndRetryLoop, ih]
    simp [prioritizedNumbers.push]

theorem removeAndRetryLoopV2_eq (g : V2.getBlocksManager) (bns : List Nat) :
    V2.removeAndRetryLoop g bns =
      { g with requesting := bns.foldl setDelete g.requesting,
               retries := ⟨bns.reverse ++ g.retries.elems⟩ } := by
  induction bns generalizing g with
  | nil => simp [V2.removeAndRetryLoop]
  | cons bn rest ih =>
    rw [V2.removeAndRetryLoop, ih]
    simp [prioritizedNumbers.push]

theorem scrubLoopV2_eq (g : V2.getBlocksManager) (l : List Nat) :
    V2.scrubLoop g l =
      { g with processing := l.foldl setDelete g.processing,
               retries := ⟨l.reverse ++ g.retries.elems⟩ } := by
  induction l generalizing g with
  | nil => simp [V2.scrubLoop]
  | cons bn rest ih =>
    rw [V2.scrubLoop, ih]
    simp [prioritizedNumbers.push]

theorem deleteProcessingLoopV2_eq (g : V2.getBlocksManager) (rs : List blockResult) :
    V2.deleteProcessingLoop g rs =
      { g with processing :=
          (rs.map blockResult.getBlockNumber).foldl setDelete g.processing } := by
  induction rs generalizing g with
  | nil => simp [V2.deleteProcessingLoop]
  | cons r rest ih =>
    rw [V2.deleteProcessingLoop, ih]
    simp

theorem addAbandonedLoopV2_eq (g : V2.getBlocksManager) (rs : List blockResult) :
    V2.addAbandonedLoop g rs =
      { g with rq := rs.foldl (fun q r => q.addBlockResults [some r.block] r.stid) g.rq } := by
  induction rs generalizing g with
  | nil => simp [V2.addAbandonedLoop]
  | cons r rest ih =>
    rw [V2.addAbandonedLoop, ih]
    simp

/-- Closed form of the second variant's `HandleRequestError`. -/
theorem handleRequestErrorV2_eq (g : V2.getBlocksManager) (bns : List Nat)
    (err : GoErr) (stid : StreamID) :
    V2.getBlocksManager.HandleRequestError g bns err stid =
      { g with
          requesting := bns.foldl setDelete g.requesting,
          processing :=
            ((g.rq.results.filter (fun r => r.stid == stid)).map
              blockResult.getBlockNumber).foldl setDelete g.processing,
          retries := ⟨((g.rq.results.filter (fun r => r.stid == stid)).map
              blockResult.getBlockNumber).reverse ++ bns.reverse ++ g.retries.elems⟩,
          rq := ⟨g.rq.results.filter (fun r => r.stid != stid)⟩ } := by
  rw [V2.getBlocksManager.HandleRequestError]
  rw [removeAndRetryLoopV2_eq]
  rw [resultQueue.removeResultsByStreamID]
  rw [scrubLoopV2_eq]
  simp [List.append_assoc]

/-- Concrete first-variant manager state: one outstanding request (height 7)
and one queued result (height 5, from stream "s1", also in `processing`). -/
def gC1 : V1.getBlocksManager :=
  { curHeight := 0, targetBN := 10, requesting := [7], processing := [5],
    retries := ⟨[]⟩, rq := ⟨[⟨⟨5, 50, 49⟩, "s1"⟩]⟩, bdd := [], resultC := false }

/-- Counterexample to C1: in the first variant of `HandleRequestError`
(block_manager.go lines 71-89, where the scrub is commented out), a result
already queued under the failing stream id stays in the result queue and in
`processing` after the call, contradicting the claim that every such result
is removed from both and pushed to retries. -/
theorem handleRequestError_v1_no_scrub_cex :
    ((V1.getBlocksManager.HandleRequestError gC1 [7] (GoErr.errorNew "boom") "s1").rq.results.any
        (fun r => r.stid == "s1")) = true
    ∧ 5 ∈ (V1.getBlocksManager.HandleRequestError gC1 [7] (GoErr.errorNew "boom") "s1").processing
    ∧ 5 ∉ (V1.getBlocksManager.HandleRequestError gC1 [7] (GoErr.errorNew "boom") "s1").retries.elems := by
  decide

/-- C1 (amended): in the second variant of `HandleRequestError`
(lines 274-292), each requested height is removed from `requesting` and
pushed to `retries`, and every queued result of the failing stream is
removed from the result queue, removed from `processing`, and pushed to
`retries`; the first variant (lines 71-89) only moves the requested heights
and leaves the result queue and `processing` untouched.  (Neither variant
contacts the stream pool: the manager holds no stream-pool handle, so the
eviction belongs to the caller.) -/
theorem handleRequestError_scrub_amended (g : V2.getBlocksManager) (bns : List Nat)
    (err : GoErr) (stid : StreamID) :
    (∀ bn ∈ bns,
        bn ∉ (V2.getBlocksManager.HandleRequestError g bns err stid).requesting
        ∧ bn ∈ (V2.getBlocksManager.HandleRequestError g bns err stid).retries.elems)
    ∧ (∀ r ∈ (V2.getBlocksManager.HandleRequestError g bns err stid).rq.results,
        r.stid ≠ stid)
    ∧ (∀ r ∈ g.rq.results, r.stid = stid →
        r.getBlockNumber ∉ (V2.getBlocksManager.HandleRequestError g bns err stid).processing
        ∧ r.getBlockNumber ∈ (V2.getBlocksManager.HandleRequestError g bns err stid).retries.elems)
    ∧ (V2.getBlocksManager.HandleRequestError g bns err stid).rq.results
        = g.rq.results.filter (fun r => r.stid != stid)
    ∧ (∀ g1 : V1.getBlocksManager,
        (V1.getBlocksManager.HandleRequestError g1 bns err stid).rq = g1.rq
        ∧ (V1.getBlocksManager.HandleRequestError g1 bns err stid).processing = g1.processing) := by
  rw [handleRequestErrorV2_eq]
  refine ⟨?_, ?_, ?_, rfl, ?_⟩
  · intro bn hbn
    constructor
    · intro hmem
      exact (mem_foldl_setDelete.mp hmem).2 hbn
    · simp only [List.mem_append, List.mem_reverse]
      tauto
  · intro r hr
    have := (List.mem_filter.mp hr).2
    simpa [bne_iff_ne] using this
  · intro r hr hstid
    have hremoved : r.getBlockNumber ∈
        (g.rq.results.filter (fun r => r.stid == stid)).map blockResult.getBlockNumber :=
      List.mem_map_of_mem _ (List.mem_filter.mpr ⟨hr, by simp [hstid]⟩)
    constructor
    · intro hmem
      exact (mem_foldl_setDelete.mp hmem).2 hremoved
    · simp only [List.mem_append, List.mem_reverse]
      tauto
  · intro g1
    rw [V1.getBlocksManager.HandleRequestError, removeAndRetryLoopV1_eq]
    exact ⟨rfl, rfl⟩

/-- Witness for C1's amended theorem at a concrete input: one requested
height, one queued result from the failing stream, one from another. -/
theorem handleRequestError_scrub_amended_witness :
    (7 ∉ (V2.getBlocksManager.HandleRequestError
        ⟨0, 10, [7], [5, 6], ⟨[]⟩, ⟨[⟨⟨5, 50, 49⟩, "s1"⟩, ⟨⟨6, 60, 50⟩, "s2"⟩]⟩, false⟩
        [7] (GoErr.errorNew "boom") "s1").requesting
      ∧ 7 ∈ (V2.getBlocksManager.HandleRequestError
        ⟨0, 10, [7], [5, 6], ⟨[]⟩, ⟨[⟨⟨5, 50, 49⟩, "s1"⟩, ⟨⟨6, 60, 50⟩, "s2"⟩]⟩, false⟩
        [7] (GoErr.errorNew "boom") "s1").retries.elems)
    ∧ (5 ∉ (V2.getBlocksManager.HandleRequestError
        ⟨0, 10, [7], [5, 6], ⟨[]⟩, ⟨[⟨⟨5, 50, 49⟩, "s1"⟩, ⟨⟨6, 60, 50⟩, "s2"⟩]⟩, false⟩
        [7] (GoErr.errorNew "boom") "s1").processing
      ∧ 5 ∈ (V2.getBlocksManager.HandleRequestError
        ⟨0, 10, [7], [5, 6], ⟨[]⟩, ⟨[⟨⟨5, 50, 49⟩, "s1"⟩, ⟨⟨6, 60, 50⟩, "s2"⟩]⟩, false⟩
        [7] (GoErr.errorNew "boom") "s1").retries.elems) :=
  ⟨(handleRequestError_scrub_amended
      ⟨0, 10, [7], [5, 6], ⟨[]⟩, ⟨[⟨⟨5, 50, 49⟩, "s1"⟩, ⟨⟨6, 60, 50⟩, "s2"⟩]⟩, false⟩
      [7] (GoErr.errorNew "boom") "s1").1 7 (by decide),
   (handleRequestError_scrub_amended
      ⟨0, 10, [7], [5, 6], ⟨[]⟩, ⟨[⟨⟨5, 50, 49⟩, "s1"⟩, ⟨⟨6, 60, 50⟩, "s2"⟩]⟩, false⟩
      [7] (GoErr.errorNew "boom") "s1").2.2.1 ⟨⟨5, 50, 49⟩, "s1"⟩ (by decide) rfl⟩

/-- Concrete second-variant manager state: a single outstanding request. -/
def gC7 : V2.getBlocksManager :=
  { curHeight := 0, targetBN := 10, requesting := [5], processing := [],
    retries := ⟨[]⟩, rq := ⟨[]⟩, resultC := false }

/-- Counterexample to C7: calling the second variant's `HandleRequestError`
twice with the same arguments does not leave the state of the first call:
the second call pushes the heights into the retries multiset again, so the
retries content differs (one copy of 5 versus two). -/
theorem handleRequestError_not_idempotent_cex :
    V2.getBlocksManager.HandleRequestError
        (V2.getBlocksManager.HandleRequestError gC7 [5] (GoErr.errorNew "x") "s1")
        [5] (GoErr.errorNew "x") "s1"
      ≠ V2.getBlocksManager.HandleRequestError gC7 [5] (GoErr.errorNew "x") "s1" := by
  decide

theorem filter_scrub_again_eq_nil (stid : StreamID) (l : List blockResult) :
    (l.filter (fun r => r.stid != stid)).filter (fun r => r.stid == stid) = [] := by
  rw [List.filter_filter]
  rw [List.filter_eq_nil_iff]
  intro r hr
  simp

theorem filter_scrub_idem (stid : StreamID) (l : List blockResult) :
    (l.filter (fun r => r.stid != stid)).filter (fun r => r.stid != stid)
      = l.filter (fun r => r.stid != stid) := by
  rw [List.filter_eq_self]
  intro r hr
  exact (List.mem_filter.mp hr).2

/-- C7 (amended): a second `HandleRequestError` with the same arguments
leaves `requesting`, `processing` and the result queue exactly as after the
first call, but pushes every height of `bns` into the retries multiset a
second time; the state is therefore unchanged only up to the set of
distinct retry heights, not as a multiset. -/
theorem handleRequestError_second_call_amended (g : V2.getBlocksManager) (bns : List Nat)
    (err err' : GoErr) (stid : StreamID) :
    (V2.getBlocksManager.HandleRequestError
        (V2.getBlocksManager.HandleRequestError g bns err stid) bns err' stid).requesting
      = (V2.getBlocksManager.HandleRequestError g bns err stid).requesting
    ∧ (V2.getBlocksManager.HandleRequestError
        (V2.getBlocksManager.HandleRequestError g bns err stid) bns err' stid).processing
      = (V2.getBlocksManager.HandleRequestError g bns err stid).processing
    ∧ (V2.getBlocksManager.HandleRequestError
        (V2.getBlocksManager.HandleRequestError g bns err stid) bns err' stid).rq
      = (V2.getBlocksManager.HandleRequestError g bns err stid).rq
    ∧ (V2.getBlocksManager.HandleRequestError
        (V2.getBlocksManager.HandleRequestError g bns err stid) bns err' stid).retries.elems
      = bns.reverse ++ (V2.getBlocksManager.HandleRequestError g bns err stid).retries.elems
    ∧ (∀ bn : Nat,
        bn ∈ (V2.getBlocksManager.HandleRequestError
            (V2.getBlocksManager.HandleRequestError g bns err stid) bns err' stid).retries.elems
          ↔ bn ∈ (V2.getBlocksManager.HandleRequestError g bns err stid).retries.elems) := by
  rw [handleRequestErrorV2_eq g bns err stid, handleRequestErrorV2_eq]
  simp only [filter_scrub_again_eq_nil, filter_scrub_idem, List.map_nil, List.reverse_nil,
    List.nil_append, List.foldl_nil]
  refine ⟨?_, by trivial, by trivial, by trivial, ?_⟩
  · apply foldl_setDelete_eq_self
    intro b hb hmem
    exact (mem_foldl_setDelete.mp hmem).2 hb
  · intro bn
    simp only [List.mem_append, List.mem_reverse]
    tauto

/-- Witness for C7's amended theorem at a concrete input. -/
theorem handleRequestError_second_call_amended_witness :
    (∀ bn : Nat,
        bn ∈ (V2.getBlocksManager.HandleRequestError
            (V2.getBlocksManager.HandleRequestError gC7 [5] (GoErr.errorNew "x") "s1")
            [5] (GoErr.errorNew "x") "s1").retries.elems
          ↔ bn ∈ (V2.getBlocksManager.HandleRequestError gC7 [5]
              (GoErr.errorNew "x") "s1").retries.elems) :=
  (handleRequestError_second_call_amended gC7 [5] (GoErr.errorNew "x")
    (GoErr.errorNew "x") "s1").2.2.2.2

theorem drop_eq_cons_of_getElem {α : Type} {l : List α} {i : Nat} {a : α}
    (h : l[i]? = some a) : l.drop i = a :: l.drop (i + 1) := by
  induction l generalizing i with
  | nil => simp at h
  | cons x xs ih =>
    cases i with
    | zero =>
      simp at h
      simp [h]
    | succ j =>
      simp only [List.getElem?_cons_succ] at h
      simpa using ih h

/-- Spec-side view of the second variant's result loop: iterate over the
paired (height, block) list. -/
def handleResultPairs : V2.getBlocksManager → List (Nat × Option Block) → V2.getBlocksManager
  | g, [] => g
  | g, (bn, ob) :: rest =>
    let g1 := { g with requesting := setDelete g.requesting bn }
    let g2 :=
      match ob with
      | none => { g1 with retries := g1.retries.push bn }
      | some _ => { g1 with processing := setInsert g1.processing bn }
    handleResultPairs g2 rest

theorem handleRequestResultLoopV2_eq_pairs {blocks : List (Option Block)}
    {bns : List Nat} {i : Nat} {g g' : V2.getBlocksManager}
    (h : V2.handleRequestResultLoop blocks g bns i = some g') :
    g' = handleResultPairs g (bns.zip (blocks.drop i)) := by
  induction bns generalizing g i with
  | nil =>
    simp only [V2.handleRequestResultLoop, Option.some_inj] at h
    simp [handleResultPairs, ← h]
  | cons bn rest ih =>
    rw [V2.handleRequestResultLoop] at h
    cases hob : blocks[i]? with
    | none => rw [hob] at h; exact Option.noConfusion h
    | some ob =>
      rw [hob] at h
      rw [drop_eq_cons_of_getElem hob, List.zip_cons_cons]
      cases ob with
      | none =>
        simp only [handleResultPairs]
        exact ih h
      | some b =>
        simp only [handleResultPairs]
        exact ih h

theorem handleRequestResultLoopV2_length {blocks : List (Option Block)}
    {bns : List Nat} {i : Nat} {g g' : V2.getBlocksManager}
    (h : V2.handleRequestResultLoop blocks g bns i = some g') :
    bns = [] ∨ i + bns.length ≤ blocks.length := by
  induction bns generalizing g i with
  | nil => exact Or.inl rfl
  | cons bn rest ih =>
    rw [V2.handleRequestResultLoop] at h
    cases hob : blocks[i]? with
    | none => rw [hob] at h; exact Option.noConfusion h
    | some ob =>
      rw [hob] at h
      have hi : i < blocks.length := by
        by_contra hge
        rw [List.getElem?_eq_none (by omega)] at hob
        exact Option.noConfusion hob
      refine Or.inr ?_
      cases ob with
      | none =>
        rcases ih h with rfl | hlen
        · simpa using hi
        · simp only [List.length_cons]; omega
      | some b =>
        rcases ih h with rfl | hlen
        · simpa using hi
        · simp only [List.length_cons]; omega

theorem handleResultPairs_fields (g : V2.getBlocksManager)
    (pairs : List (Nat × Option Block)) :
    (handleResultPairs g pairs).rq = g.rq
    ∧ (handleResultPairs g pairs).resultC = g.resultC
    ∧ (handleResultPairs g pairs).curHeight = g.curHeight
    ∧ (handleResultPairs g pairs).targetBN = g.targetBN := by
  induction pairs generalizing g with
  | nil => exact ⟨rfl, rfl, rfl, rfl⟩
  | cons p rest ih =>
    cases p with
    | mk bn ob =>
      cases ob with
      | none => simpa [handleResultPairs] using ih _
      | some b => simpa [handleResultPairs] using ih _

theorem handleResultPairs_retries_mono {x : Nat} (g : V2.getBlocksManager)
    (pairs : List (Nat × Option Block)) (h : x ∈ g.retries.elems) :
    x ∈ (handleResultPairs g pairs).retries.elems := by
  induction pairs generalizing g with
  | nil => exact h
  | cons p rest ih =>
    cases p with
    | mk bn ob =>
      cases ob with
      | none =>
        exact ih _ (List.mem_cons_of_mem bn h)
      | some b =>
        exact ih _ h

theorem handleResultPairs_processing_mono {x : Nat} (g : V2.getBlocksManager)
    (pairs : List (Nat × Option Block)) (h : x ∈ g.processing) :
    x ∈ (handleResultPairs g pairs).processing := by
  induction pairs generalizing g with
  | nil => exact h
  | cons p rest ih =>
    cases p with
    | mk bn ob =>
      cases ob with
      | none => exact ih _ h
      | some b => exact ih _ (mem_setInsert.mpr (Or.inr h))

theorem handleResultPairs_requesting_anti {x : Nat} (g : V2.getBlocksManager)
    (pairs : List (Nat × Option Block)) (h : x ∉ g.requesting) :
    x ∉ (handleResultPairs g pairs).requesting := by
  induction pairs generalizing g with
  | nil => exact h
  | cons p rest ih =>
    cases p with
    | mk bn ob =>
      have hdel : x ∉ setDelete g.requesting bn := fun hmem =>
        h (mem_setDelete.mp hmem).1
      cases ob with
      | none => exact ih _ hdel
      | some b => exact ih _ hdel

theorem handleResultPairs_requesting_delete (g : V2.getBlocksManager)
    (pairs : List (Nat × Option Block)) :
    ∀ p ∈ pairs, p.1 ∉ (handleResultPairs g pairs).requesting := by
  induction pairs generalizing g with
  | nil => simp
  | cons q rest ih =>
    rcases q with ⟨bn, ob⟩
    intro p hp
    rcases List.mem_cons.mp hp with rfl | hrest
    · have hdel : bn ∉ setDelete g.requesting bn := fun hmem =>
        (mem_setDelete.mp hmem).2 rfl
      cases ob with
      | none =>
        simp only [handleResultPairs]
        exact handleResultPairs_requesting_anti _ rest hdel
      | some b =>
        simp only [handleResultPairs]
        exact handleResultPairs_requesting_anti _ rest hdel
    · cases ob with
      | none => exact ih _ p hrest
      | some b => exact ih _ p hrest

theorem handleResultPairs_sorted_effect (g : V2.getBlocksManager)
    (pairs : List (Nat × Option Block)) :
    ∀ p ∈ pairs,
      (p.2 = none → p.1 ∈ (handleResultPairs g pairs).retries.elems)
      ∧ (p.2.isSome = true → p.1 ∈ (handleResultPairs g pairs).processing) := by
  induction pairs generalizing g with
  | nil => simp
  | cons q rest ih =>
    rcases q with ⟨bn, ob⟩
    intro p hp
    rcases List.mem_cons.mp hp with rfl | hrest
    · cases ob with
      | none =>
        refine ⟨fun _ => ?_, fun hs => by simp at hs⟩
        simp only [handleResultPairs]
        exact handleResultPairs_retries_mono _ rest (List.mem_cons_self _ _)
      | some b =>
        refine ⟨fun hn => by simp at hn, fun _ => ?_⟩
        simp only [handleResultPairs]
        exact handleResultPairs_processing_mono _ rest (mem_setInsert.mpr (Or.inl rfl))
    · cases ob with
      | none => exact ih _ p hrest
      | some b => exact ih _ p hrest

theorem addBlockResults_cons_none (rq : resultQueue) (rest : List (Option Block))
    (stid : StreamID) :
    rq.addBlockResults (none :: rest) stid = rq.addBlockResults rest stid := rfl

theorem addBlockResults_cons_some (rq : resultQueue) (rest : List (Option Block))
    (stid : StreamID) (b : Block) :
    rq.addBlockResults (some b :: rest) stid =
      (if rq.containsBN b.number = true then rq
       else ⟨rq.results ++ [⟨b, stid⟩]⟩ : resultQueue).addBlockResults rest stid := rfl

theorem containsBN_addBlockResults_mono {rq : resultQueue} {blocks : List (Option Block)}
    {stid : StreamID} {bn : Nat} (h : rq.containsBN bn = true) :
    (rq.addBlockResults blocks stid).containsBN bn = true := by
  induction blocks generalizing rq with
  | nil => exact h
  | cons ob rest ih =>
    cases ob with
    | none =>
      rw [addBlockResults_cons_none]
      exact ih h
    | some b =>
      rw [addBlockResults_cons_some]
      by_cases hc : rq.containsBN b.number = true
      · rw [if_pos hc]
        exact ih h
      · rw [if_neg hc]
        apply ih
        simp only [resultQueue.containsBN, List.any_append] at h ⊢
        rw [h]
        rfl

theorem containsBN_addBlockResults_added {rq : resultQueue} {blocks : List (Option Block)}
    {stid : StreamID} {b : Block} (h : some b ∈ blocks) :
    (rq.addBlockResults blocks stid).containsBN b.number = true := by
  induction blocks generalizing rq with
  | nil => simp at h
  | cons ob rest ih =>
    rcases List.mem_cons.mp h with heq | hrest
    · subst heq
      rw [addBlockResults_cons_some]
      by_cases hc : rq.containsBN b.number = true
      · rw [if_pos hc]
        exact containsBN_addBlockResults_mono hc
      · rw [if_neg hc]
        apply containsBN_addBlockResults_mono
        simp [resultQueue.containsBN, blockResult.getBlockNumber]
    · cases ob with
      | none =>
        rw [addBlockResults_cons_none]
        exact ih hrest
      | some b' =>
        rw [addBlockResults_cons_some]
        by_cases hc : rq.containsBN b'.number = true
        · rw [if_pos hc]
          exact ih hrest
        · rw [if_neg hc]
          exact ih hrest

theorem mem_addBlockResults {rq : resultQueue} {blocks : List (Option Block)}
    {stid : StreamID} {r : blockResult}
    (h : r ∈ (rq.addBlockResults blocks stid).results) :
    r ∈ rq.results ∨ (r.stid = stid ∧ some r.block ∈ blocks) := by
  induction blocks generalizing rq with
  | nil => exact Or.inl h
  | cons ob rest ih =>
    cases ob with
    | none =>
      rw [addBlockResults_cons_none] at h
      rcases ih h with hl | hr
      · exact Or.inl hl
      · exact Or.inr ⟨hr.1, List.mem_cons_of_mem _ hr.2⟩
    | some b =>
      rw [addBlockResults_cons_some] at h
      by_cases hc : rq.containsBN b.number = true
      · rw [if_pos hc] at h
        rcases ih h with hl | hr
        · exact Or.inl hl
        · exact Or.inr ⟨hr.1, List.mem_cons_of_mem _ hr.2⟩
      · rw [if_neg hc] at h
        rcases ih h with hl | hr
        · rcases List.mem_append.mp hl with hl2 | hl2
          · exact Or.inl hl2
          · have hr2 : r = ⟨b, stid⟩ := by simpa using hl2
            subst hr2
            exact Or.inr ⟨rfl, List.mem_cons_self _ _⟩
        · exact Or.inr ⟨hr.1, List.mem_cons_of_mem _ hr.2⟩

theorem handleRequestResultLoopV1_fields {blockBytes : List (List Nat)} {loopID : Int}
    {streamID : StreamID} {bns : List Nat} {i : Nat} {g g' : V1.getBlocksManager}
    (h : V1.handleRequestResultLoop blockBytes loopID streamID g bns i = some g') :
    g'.rq = g.rq ∧ g'.resultC = g.resultC := by
  induction bns generalizing g i with
  | nil =>
    simp only [V1.handleRequestResultLoop, Option.some_inj] at h
    rw [← h]
    exact ⟨rfl, rfl⟩
  | cons bn rest ih =>
    rw [V1.handleRequestResultLoop] at h
    cases hob : blockBytes[i]? with
    | none => rw [hob] at h; exact Option.noConfusion h
    | some bytes =>
      rw [hob] at h
      have h2 : V1.handleRequestResultLoop blockBytes loopID streamID
          (if bytes.length ≤ 1 then
            { g with requesting := setDelete g.requesting bn, retries := g.retries.push bn }
          else
            { g with requesting := setDelete g.requesting bn,
                     processing := setInsert g.processing bn,
                     bdd := V1.bddInsert g.bdd bn ⟨loopID, streamID⟩ })
          rest (i + 1) = some g' := h
      by_cases hlen : bytes.length ≤ 1
      · rw [if_pos hlen] at h2
        have h3 := ih h2
        exact h3
      · rw [if_neg hlen] at h2
        have h3 := ih h2
        exact h3

/-- Concrete first-variant manager state for the C2 counterexample. -/
def gC2 : V1.getBlocksManager :=
  { curHeight := 0, targetBN := 10, requesting := [5], processing := [],
    retries := ⟨[]⟩, rq := ⟨[]⟩, bdd := [], resultC := false }

/-- Counterexample to C2: in the first variant of `HandleRequestResult`
(block_manager.go lines 92-109), a successful call that moves height 5 into
`processing` pushes nothing into the result queue and sends no signal on
`resultC`, contradicting the claim's final conjunct. -/
theorem handleRequestResult_v1_no_queue_push_cex :
    (V1.getBlocksManager.HandleRequestResult gC2 [5] [[0, 1, 2]] [[0]] 0 "s1").map
        (fun g => (g.rq.results.length, g.resultC, decide (5 ∈ g.processing)))
      = some (0, false, true) := by
  decide

/-- C2 (amended): in the second variant of `HandleRequestResult`
(lines 295-312), for each index `i` the height `bns[i]` is removed from
`requesting`; a nil `blocks[i]` pushes `bns[i]` into `retries` and a
non-nil one moves it into `processing`; afterwards the non-nil blocks are
pushed into the result queue under `sid` (first-writer-wins on heights) and
`resultC` is nudged non-blockingly.  No `DownloadDetails` are recorded by
this variant; the byte-level variant (lines 92-109) records them but
touches neither the result queue nor `resultC`. -/
theorem handleRequestResult_amended (g : V2.getBlocksManager) (bns : List Nat)
    (blocks : List (Option Block)) (stid : StreamID) (g' : V2.getBlocksManager)
    (h : V2.getBlocksManager.HandleRequestResult g bns blocks stid = some g') :
    (∀ bn ∈ bns, bn ∉ g'.requesting)
    ∧ (∀ p ∈ bns.zip blocks,
        (p.2 = none → p.1 ∈ g'.retries.elems)
        ∧ (p.2.isSome = true → p.1 ∈ g'.processing))
    ∧ (∀ b : Block, some b ∈ blocks → g'.rq.containsBN b.number = true)
    ∧ (∀ r ∈ g'.rq.results, r ∈ g.rq.results ∨ (r.stid = stid ∧ some r.block ∈ blocks))
    ∧ g'.resultC = true
    ∧ (∀ (g1 g1' : V1.getBlocksManager) (blockBytes sigBytes : List (List Nat))
          (lid : Int) (st : StreamID),
        V1.getBlocksManager.HandleRequestResult g1 bns blockBytes sigBytes lid st = some g1' →
          g1'.rq = g1.rq ∧ g1'.resultC = g1.resultC) := by
  rw [V2.getBlocksManager.HandleRequestResult] at h
  cases hloop : V2.handleRequestResultLoop blocks g bns 0 with
  | none => rw [hloop] at h; exact Option.noConfusion h
  | some g1 =>
    rw [hloop] at h
    have hg' : g' = { g1 with rq := g1.rq.addBlockResults blocks stid, resultC := true } := by
      exact (Option.some_inj.mp h).symm
    have hpairs : g1 = handleResultPairs g (bns.zip blocks) := by
      have := handleRequestResultLoopV2_eq_pairs hloop
      simpa using this
    subst hg'
    refine ⟨?_, ?_, ?_, ?_, rfl, ?_⟩
    · intro bn hbn
      show bn ∉ g1.requesting
      rw [hpairs]
      rcases handleRequestResultLoopV2_length hloop with rfl | hlen
      · simp at hbn
      · have hzip : (bns.zip blocks).map Prod.fst = bns :=
          List.map_fst_zip bns blocks (by omega)
        rw [← hzip] at hbn
        rcases List.mem_map.mp hbn with ⟨p, hp, rfl⟩
        exact handleResultPairs_requesting_delete g (bns.zip blocks) p hp
    · intro p hp
      constructor
      · intro hnone
        show p.1 ∈ g1.retries.elems
        rw [hpairs]
        exact (handleResultPairs_sorted_effect g (bns.zip blocks) p hp).1 hnone
      · intro hsome
        show p.1 ∈ g1.processing
        rw [hpairs]
        exact (handleResultPairs_sorted_effect g (bns.zip blocks) p hp).2 hsome
    · intro b hb
      exact containsBN_addBlockResults_added hb
    · intro r hr
      rcases mem_addBlockResults hr with hl | hrr
      · rw [hpairs] at hl
        rw [(handleResultPairs_fields g (bns.zip blocks)).1] at hl
        exact Or.inl hl
      · exact Or.inr hrr
    · intro g1a g1a' blockBytes sigBytes lid st hcall
      rw [V1.getBlocksManager.HandleRequestResult] at hcall
      exact handleRequestResultLoopV1_fields hcall

/-- Concrete second-variant manager state for the C2 witness. -/
def gC2b : V2.getBlocksManager :=
  { curHeight := 0, targetBN := 10, requesting := [5, 6], processing := [],
    retries := ⟨[]⟩, rq := ⟨[]⟩, resultC := false }

/-- The state produced by `HandleRequestResult` on `gC2b` with one good
block (height 5) and one nil entry (height 6). -/
def gC2bRes : V2.getBlocksManager :=
  { curHeight := 0, targetBN := 10, requesting := [], processing := [5],
    retries := ⟨[6]⟩, rq := ⟨[⟨⟨5, 50, 49⟩, "s1"⟩]⟩, resultC := true }

/-- Witness for C2's amended theorem at a concrete input. -/
theorem handleRequestResult_amended_witness :
    5 ∉ gC2bRes.requesting ∧ gC2bRes.resultC = true :=
  ⟨(handleRequestResult_amended gC2b [5, 6] [some ⟨5, 50, 49⟩, none] "s1" gC2bRes
      (by decide)).1 5 (by decide),
   (handleRequestResult_amended gC2b [5, 6] [some ⟨5, 50, 49⟩, none] "s1" gC2bRes
      (by decide)).2.2.2.2.1⟩

theorem pop_fst_mem {pn : prioritizedNumbers} (h : (pn.pop).1 ≠ 0) :
    (pn.pop).1 ∈ pn.elems := by
  unfold prioritizedNumbers.pop at *
  cases hm : listMin pn.elems with
  | none => rw [hm] at h; exact absurd rfl h
  | some m => exact listMin_mem hm

theorem pop_snd_subset {pn : prioritizedNumbers} :
    ∀ x ∈ (pn.pop).2.elems, x ∈ pn.elems := by
  unfold prioritizedNumbers.pop
  cases hm : listMin pn.elems with
  | none => simp
  | some m =>
    intro x hx
    simp only at hx
    exact List.mem_of_mem_erase hx

theorem pop_fst_min {pn : prioritizedNumbers} (h : (pn.pop).1 ≠ 0) :
    ∀ x ∈ pn.elems, (pn.pop).1 ≤ x := by
  unfold prioritizedNumbers.pop at *
  cases hm : listMin pn.elems with
  | none => rw [hm] at h; exact absurd rfl h
  | some m => exact listMin_le hm

theorem getBatchFromRetriesLoop_length (curHeight : Nat) (pn : prioritizedNumbers)
    (cap : Nat) : (V2.getBatchFromRetriesLoop curHeight pn cap).1.length ≤ cap := by
  induction cap generalizing pn with
  | zero => simp [V2.getBatchFromRetriesLoop]
  | succ c ih =>
    simp only [V2.getBatchFromRetriesLoop]
    by_cases h0 : (pn.pop).1 = 0
    · rw [if_pos h0]
      simp
    · rw [if_neg h0]
      by_cases hle : (pn.pop).1 ≤ curHeight
      · rw [if_pos hle]
        exact le_trans (ih _) (Nat.le_succ c)
      · rw [if_neg hle]
        simp only [List.length_cons]
        exact Nat.succ_le_succ (ih _)

theorem getBatchFromRetriesLoop_mem (curHeight : Nat) (pn : prioritizedNumbers)
    (cap : Nat) :
    ∀ x ∈ (V2.getBatchFromRetriesLoop curHeight pn cap).1,
      x ∈ pn.elems ∧ curHeight < x := by
  induction cap generalizing pn with
  | zero => simp [V2.getBatchFromRetriesLoop]
  | succ c ih =>
    simp only [V2.getBatchFromRetriesLoop]
    by_cases h0 : (pn.pop).1 = 0
    · rw [if_pos h0]
      simp
    · rw [if_neg h0]
      by_cases hle : (pn.pop).1 ≤ curHeight
      · rw [if_pos hle]
        intro x hx
        obtain ⟨hm, hc⟩ := ih _ x hx
        exact ⟨pop_snd_subset x hm, hc⟩
      · rw [if_neg hle]
        intro x hx
        rcases List.mem_cons.mp hx with rfl | hx'
        · exact ⟨pop_fst_mem h0, by omega⟩
        · obtain ⟨hm, hc⟩ := ih _ x hx'
          exact ⟨pop_snd_subset x hm, hc⟩

theorem getBatchFromRetriesLoop_sorted (curHeight : Nat) (pn : prioritizedNumbers)
    (cap : Nat) :
    ((V2.getBatchFromRetriesLoop curHeight pn cap).1).Pairwise (· ≤ ·) := by
  induction cap generalizing pn with
  | zero => simp [V2.getBatchFromRetriesLoop]
  | succ c ih =>
    simp only [V2.getBatchFromRetriesLoop]
    by_cases h0 : (pn.pop).1 = 0
    · rw [if_pos h0]
      simp
    · rw [if_neg h0]
      by_cases hle : (pn.pop).1 ≤ curHeight
      · rw [if_pos hle]
        exact ih _
      · rw [if_neg hle]
        refine List.Pairwise.cons ?_ (ih _)
        intro x hx
        have hmem := (getBatchFromRetriesLoop_mem curHeight _ c x hx).1
        exact pop_fst_min h0 x (pop_snd_subset x hmem)

/-- Spec-side predicate: the height is in neither `requesting` nor
`processing`. -/
def freeHeight (req proc : List Nat) (x : Nat) : Bool :=
  decide (x ∉ req ∧ x ∉ proc)

theorem innerScan_filter (req proc : List Nat) (target : Nat) :
    ∀ (fuel bn : Nat), target + 1 - bn = fuel →
      (rangeFrom bn fuel).filter (freeHeight req proc) =
        (match V2.innerScan req proc target fuel bn with
         | none => []
         | some m => m :: (rangeFrom (m + 1) (target - m)).filter (freeHeight req proc)) := by
  intro fuel
  induction fuel with
  | zero =>
    intro bn _
    simp [rangeFrom, V2.innerScan]
  | succ k ih =>
    intro bn hf
    have hle : bn ≤ target := by omega
    rw [V2.innerScan, if_pos hle]
    by_cases hfree : bn ∉ req ∧ bn ∉ proc
    · rw [if_pos hfree]
      simp only [rangeFrom, List.filter_cons]
      have hfr : freeHeight req proc bn = true := decide_eq_true hfree
      rw [hfr]
      have hk : k = target - bn := by omega
      subst hk
      simp
    · rw [if_neg hfree]
      have hfr : freeHeight req proc bn = false := by
        simp only [freeHeight, decide_eq_false_iff_not]
        exact hfree
      simp only [rangeFrom, List.filter_cons, hfr]
      simp only [Bool.false_eq_true, if_false]
      exact ih (bn + 1) (by omega)

theorem outerScan_eq (req proc : List Nat) (target : Nat) :
    ∀ (cap bn : Nat),
      V2.outerScan req proc target cap bn =
        ((rangeFrom bn (target + 1 - bn)).filter (freeHeight req proc)).take cap := by
  intro cap
  induction cap with
  | zero =>
    intro bn
    simp [V2.outerScan]
  | succ c ih =>
    intro bn
    rw [V2.outerScan]
    rw [innerScan_filter req proc target (target + 1 - bn) bn rfl]
    cases hscan : V2.innerScan req proc target (target + 1 - bn) bn with
    | none => simp
    | some m =>
      simp only [List.take_succ_cons]
      rw [ih (m + 1)]
      have he : target + 1 - (m + 1) = target - m := by omega
      rw [he]

/-- The retries-drawn part of a `GetNextBatch` call. -/
def retriesPart (g : V2.getBlocksManager) (bpr : Nat) : List Nat :=
  (g.getBatchFromRetries bpr).1

/-- The fresh (never-requested) part of a `GetNextBatch` call: the first
`bpr - |retriesPart|` heights above the current head, up to `targetBN`,
that are in neither `requesting` (after the retries part was added) nor
`processing`. -/
def freshPart (g : V2.getBlocksManager) (bpr : Nat) : List Nat :=
  ((rangeFrom (g.curHeight + 1) (g.targetBN - g.curHeight)).filter
      (freeHeight (V2.addBatchToRequesting g.requesting (retriesPart g bpr)) g.processing)).take
    (bpr - (retriesPart g bpr).length)

theorem retriesPart_eq (g : V2.getBlocksManager) (bpr : Nat) :
    retriesPart g bpr = (V2.getBatchFromRetriesLoop g.curHeight g.retries bpr).1 := rfl

theorem getNextBatchV2_components (g : V2.getBlocksManager) (bpr sqc : Nat) :
    (g.GetNextBatch bpr sqc).1
        = retriesPart g bpr ++ (if g.rq.len < sqc then freshPart g bpr else [])
    ∧ (g.GetNextBatch bpr sqc).2.requesting
        = V2.addBatchToRequesting
            (V2.addBatchToRequesting g.requesting (retriesPart g bpr))
            (if g.rq.len < sqc then freshPart g bpr else []) := by
  simp only [V2.getBlocksManager.GetNextBatch, V2.getBlocksManager.getBatchFromRetries,
    V2.getBlocksManager.availableForMoreTasks, V2.getBlocksManager.getBatchFromUnprocessed,
    retriesPart, freshPart, decide_eq_true_eq]
  by_cases hq : g.rq.len < sqc
  · simp only [hq, if_true]
    rw [outerScan_eq]
    have he : g.targetBN + 1 - (g.curHeight + 1) = g.targetBN - g.curHeight := by omega
    rw [he]
    exact ⟨rfl, rfl⟩
  · simp only [hq, if_false]
    exact ⟨(List.append_nil _).symm, rfl⟩

/-- C3: `GetNextBatch` returns at most `BlocksPerRequest` heights: first the
retries part (drawn smallest-first from `retries`, stale heights at or below
the head dropped), then — only if the result queue is shorter than
`SoftQueueCap` — the contiguous scan of never-requested heights from
`head + 1` up to `targetBN`, skipping `requesting` and `processing`, until
the cap is filled; and every returned height is in `requesting` on return. -/
theorem getNextBatch_spec (g : V2.getBlocksManager) (bpr sqc : Nat) :
    (g.GetNextBatch bpr sqc).1.length ≤ bpr
    ∧ (g.GetNextBatch bpr sqc).1
        = retriesPart g bpr ++ (if g.rq.len < sqc then freshPart g bpr else [])
    ∧ (∀ bn ∈ retriesPart g bpr, bn ∈ g.retries.elems ∧ g.curHeight < bn)
    ∧ (retriesPart g bpr).Pairwise (· ≤ ·)
    ∧ (∀ bn ∈ freshPart g bpr,
        g.curHeight < bn ∧ bn ≤ g.targetBN
        ∧ bn ∉ V2.addBatchToRequesting g.requesting (retriesPart g bpr)
        ∧ bn ∉ g.processing)
    ∧ (∀ bn ∈ (g.GetNextBatch bpr sqc).1, bn ∈ (g.GetNextBatch bpr sqc).2.requesting) := by
  obtain ⟨hc1, hc2⟩ := getNextBatchV2_components g bpr sqc
  have hlenr : (retriesPart g bpr).length ≤ bpr := by
    rw [retriesPart_eq]
    exact getBatchFromRetriesLoop_length _ _ _
  refine ⟨?_, hc1, ?_, ?_, ?_, ?_⟩
  · rw [hc1, List.length_append]
    have hlenf : (if g.rq.len < sqc then freshPart g bpr else []).length
        ≤ bpr - (retriesPart g bpr).length := by
      split
      · rw [freshPart]
        exact List.length_take_le _ _
      · simp
    omega
  · intro bn hbn
    rw [retriesPart_eq] at hbn
    exact getBatchFromRetriesLoop_mem _ _ _ bn hbn
  · rw [retriesPart_eq]
    exact getBatchFromRetriesLoop_sorted _ _ _
  · intro bn hbn
    rw [freshPart] at hbn
    have hmf := List.mem_of_mem_take hbn
    obtain ⟨hr, hfree⟩ := List.mem_filter.mp hmf
    rw [mem_rangeFrom] at hr
    have hfree2 : bn ∉ V2.addBatchToRequesting g.requesting (retriesPart g bpr)
        ∧ bn ∉ g.processing := of_decide_eq_true hfree
    exact ⟨by omega, by omega, hfree2.1, hfree2.2⟩
  · intro bn hbn
    rw [hc2]
    rw [hc1] at hbn
    unfold V2.addBatchToRequesting
    rw [mem_foldl_setInsert, mem_foldl_setInsert]
    rcases List.mem_append.mp hbn with hl | hr
    · exact Or.inl (Or.inr hl)
    · exact Or.inr hr

/-- Concrete second-variant manager state for the C3 witness: head 0,
target 3, one retry (height 2). -/
def gC3 : V2.getBlocksManager :=
  { curHeight := 0, targetBN := 3, requesting := [], processing := [],
    retries := ⟨[2]⟩, rq := ⟨[]⟩, resultC := false }

/-- Witness for C3 at a concrete input: height 2 is drawn from retries into
the batch and is in `requesting` when the call returns. -/
theorem getNextBatch_spec_witness :
    2 ∈ (gC3.GetNextBatch 2 1).2.requesting :=
  (getNextBatch_spec gC3 2 1).2.2.2.2.2 2 (by decide)

/-- Concrete second-variant manager state for the C8 witness. -/
def gC8 : V2.getBlocksManager :=
  { curHeight := 0, targetBN := 10, requesting := [], processing := [],
    retries := ⟨[4]⟩, rq := ⟨[]⟩, resultC := false }

/-- C8: with `SoftQueueCap = 0` the queue-length test `rq.len < 0` can never
hold, so `GetNextBatch` returns exactly the retries part and every returned
height comes from `retries`. -/
theorem getNextBatch_softQueueCapZero_only_retries (g : V2.getBlocksManager) (bpr : Nat) :
    (g.GetNextBatch bpr 0).1 = retriesPart g bpr
    ∧ (∀ bn ∈ (g.GetNextBatch bpr 0).1, bn ∈ g.retries.elems) := by
  have hc1 := (getNextBatchV2_components g bpr 0).1
  have hz : ¬ (g.rq.len < 0) := Nat.not_lt_zero _
  rw [if_neg hz, List.append_nil] at hc1
  refine ⟨hc1, ?_⟩
  intro bn hbn
  rw [hc1, retriesPart_eq] at hbn
  exact (getBatchFromRetriesLoop_mem _ _ _ bn hbn).1

/-- Witness for C8 at a concrete input: with cap 0, the returned height 4
came from retries. -/
theorem getNextBatch_softQueueCapZero_only_retries_witness :
    4 ∈ gC8.retries.elems :=
  (getNextBatch_softQueueCapZero_only_retries gC8 3).2 4 (by decide)

/-- The result-queue value accumulated by the abandoned-results loop of
`HandleInsertError`. -/
def abandonedFold (rq : resultQueue) (rs : List blockResult) : resultQueue :=
  rs.foldl (fun q r => q.addBlockResults [some r.block] r.stid) rq

theorem addBlockResults_single_fresh {rq : resultQueue} {b : Block} {stid : StreamID}
    (h : rq.containsBN b.number = false) :
    rq.addBlockResults [some b] stid = ⟨rq.results ++ [⟨b, stid⟩]⟩ := by
  rw [addBlockResults_cons_some, if_neg (by simp [h])]
  rfl

theorem abandonedFold_results (rq : resultQueue) (rs : List blockResult)
    (hnd : (rs.map blockResult.getBlockNumber).Nodup)
    (hfresh : ∀ r ∈ rs, rq.containsBN r.getBlockNumber = false) :
    (abandonedFold rq rs).results
      = rq.results ++ rs.map (fun r => (⟨r.block, r.stid⟩ : blockResult)) := by
  induction rs generalizing rq with
  | nil => simp [abandonedFold]
  | cons a rest ih =>
    have hfa : rq.containsBN a.getBlockNumber = false := hfresh a (List.mem_cons_self a rest)
    have hstep : rq.addBlockResults [some a.block] a.stid
        = ⟨rq.results ++ [⟨a.block, a.stid⟩]⟩ := addBlockResults_single_fresh hfa
    have hnd' : (rest.map blockResult.getBlockNumber).Nodup := (List.nodup_cons.mp hnd).2
    have hanot : a.getBlockNumber ∉ rest.map blockResult.getBlockNumber :=
      (List.nodup_cons.mp hnd).1
    have hfresh' : ∀ r ∈ rest,
        (⟨rq.results ++ [⟨a.block, a.stid⟩]⟩ : resultQueue).containsBN r.getBlockNumber
          = false := by
      intro r hr
      simp only [resultQueue.containsBN, List.any_append, Bool.or_eq_false_iff]
      constructor
      · exact hfresh r (List.mem_cons_of_mem a hr)
      · simp only [List.any_cons, List.any_nil, Bool.or_false]
        simp only [blockResult.getBlockNumber, beq_eq_false_iff_ne, ne_eq]
        intro heq
        apply hanot
        have heq2 : a.getBlockNumber = r.getBlockNumber := heq
        rw [heq2]
        exact List.mem_map_of_mem blockResult.getBlockNumber hr
    have : abandonedFold rq (a :: rest)
        = abandonedFold ⟨rq.results ++ [⟨a.block, a.stid⟩]⟩ rest := by
      simp only [abandonedFold, List.foldl_cons, hstep]
    rw [this, ih _ hnd' hfresh']
    simp [List.append_assoc]

/-- Closed form of `HandleInsertError` on an in-range index. -/
theorem handleInsertErrorV2_eq (g : V2.getBlocksManager) (results : List blockResult)
    (n : Nat) (errResult : blockResult) (herr : results[n]? = some errResult) :
    V2.getBlocksManager.HandleInsertError g results n =
      some (V2.scrubLoop
        { g with
            processing := setDelete
              (((results.take n).map blockResult.getBlockNumber).foldl setDelete g.processing)
              errResult.getBlockNumber,
            retries := g.retries.push errResult.getBlockNumber,
            rq := ⟨(abandonedFold g.rq (results.drop (n + 1))).results.filter
                (fun r => r.stid != errResult.stid)⟩ }
        (((abandonedFold g.rq (results.drop (n + 1))).results.filter
            (fun r => r.stid == errResult.stid)).map blockResult.getBlockNumber)) := by
  have hn : n < results.length := by
    have := List.getElem?_eq_some.mp herr
    exact this.choose
  simp only [V2.getBlocksManager.HandleInsertError]
  rw [if_neg (by omega : ¬ n > results.length), herr]
  rw [if_pos (show n ≠ results.length by omega)]
  rw [deleteProcessingLoopV2_eq, addAbandonedLoopV2_eq]
  rfl

/-- Counterexample to C4: with `results = [r0, r1]` both from stream "s1"
and `n = 0`, the abandoned result `r1` (height 6) is first re-enqueued and
then immediately scrubbed away by the stream-id sweep for `results[0]`'s
stream; the final result queue is empty and height 6 sits in retries, so
`results[n+1..]` are not (still) enqueued in the result queue after the
call, as the claim asserts. -/
theorem handleInsertError_abandoned_scrubbed_cex :
    (V2.getBlocksManager.HandleInsertError
        ⟨0, 10, [], [5, 6], ⟨[]⟩, ⟨[]⟩, false⟩
        [⟨⟨5, 50, 49⟩, "s1"⟩, ⟨⟨6, 60, 50⟩, "s1"⟩] 0).map
        (fun g => (g.rq.results.length, g.retries.elems))
      = some (0, [6, 5]) := by
  decide

/-- C4 (amended): for `HandleInsertError(results, n)` with `n` in range,
pairwise-distinct result heights, and the results already popped out of the
result queue: the heights of `results[0..n)` are removed from `processing`;
the offender `results[n]` is removed from `processing` and pushed into
`retries`; every result queued under the offender's stream id is removed
from the result queue, removed from `processing`, and pushed into
`retries`, and no entry of that stream remains queued.  The re-enqueueing
of `results[n+1..]` happens *before* the stream-id scrub, so an abandoned
result sharing the offender's stream id ends up scrubbed into `retries`
and absent from the final queue; abandoned results with a different stream
id remain in the result queue. -/
theorem handleInsertError_amended (g : V2.getBlocksManager) (results : List blockResult)
    (n : Nat) (g' : V2.getBlocksManager) (errResult : blockResult)
    (hcall : V2.getBlocksManager.HandleInsertError g results n = some g')
    (herr : results[n]? = some errResult)
    (hnodup : (results.map blockResult.getBlockNumber).Nodup)
    (hfresh : ∀ r ∈ results, g.rq.containsBN r.getBlockNumber = false) :
    (∀ r ∈ results.take n, r.getBlockNumber ∉ g'.processing)
    ∧ errResult.getBlockNumber ∉ g'.processing
    ∧ errResult.getBlockNumber ∈ g'.retries.elems
    ∧ (∀ r ∈ g.rq.results, r.stid = errResult.stid →
        r.getBlockNumber ∉ g'.processing ∧ r.getBlockNumber ∈ g'.retries.elems)
    ∧ (∀ r ∈ g'.rq.results, r.stid ≠ errResult.stid)
    ∧ (∀ r ∈ results.drop (n + 1),
        (r.stid = errResult.stid →
          r.getBlockNumber ∈ g'.retries.elems
          ∧ g'.rq.containsBN r.getBlockNumber = false)
        ∧ (r.stid ≠ errResult.stid →
          g'.rq.containsBN r.getBlockNumber = true)) := by
  have hnd2 : ((results.drop (n + 1)).map blockResult.getBlockNumber).Nodup :=
    hnodup.sublist ((List.drop_sublist _ _).map _)
  have hfresh2 : ∀ r ∈ results.drop (n + 1),
      g.rq.containsBN r.getBlockNumber = false :=
    fun r hr => hfresh r (List.mem_of_mem_drop hr)
  have hres := abandonedFold_results g.rq (results.drop (n + 1)) hnd2 hfresh2
  rw [handleInsertErrorV2_eq g results n errResult herr] at hcall
  have hg' : g' = _ := (Option.some_inj.mp hcall).symm
  subst hg'
  rw [scrubLoopV2_eq, hres]
  simp only [List.filter_append, List.map_append, prioritizedNumbers.push]
  refine ⟨?_, ?_, ?_, ?_, ?_, ?_⟩
  · intro r hr hmem
    rw [mem_foldl_setDelete, mem_setDelete, mem_foldl_setDelete] at hmem
    exact hmem.1.1.2 (List.mem_map_of_mem _ hr)
  · intro hmem
    rw [mem_foldl_setDelete, mem_setDelete] at hmem
    exact hmem.1.2 rfl
  · exact List.mem_append.mpr (Or.inr (List.mem_cons_self _ _))
  · intro r hr hstid
    have hrh : r.getBlockNumber ∈
        (g.rq.results.filter (fun e => e.stid == errResult.stid)).map
          blockResult.getBlockNumber :=
      List.mem_map_of_mem _ (List.mem_filter.mpr ⟨hr, by simp [hstid]⟩)
    constructor
    · intro hmem
      rw [mem_foldl_setDelete] at hmem
      exact hmem.2 (List.mem_append.mpr (Or.inl hrh))
    · exact List.mem_append.mpr
        (Or.inl (List.mem_reverse.mpr (List.mem_append.mpr (Or.inl hrh))))
  · intro e he
    rcases List.mem_append.mp he with h1 | h1 <;>
    · have hne := (List.mem_filter.mp h1).2
      simpa [bne_iff_ne] using hne
  · intro r hr
    have hentry : (⟨r.block, r.stid⟩ : blockResult) ∈
        (results.drop (n + 1)).map (fun r => (⟨r.block, r.stid⟩ : blockResult)) :=
      List.mem_map_of_mem _ hr
    constructor
    · intro hstid
      constructor
      · have hf : (⟨r.block, r.stid⟩ : blockResult) ∈
            ((results.drop (n + 1)).map
              (fun r => (⟨r.block, r.stid⟩ : blockResult))).filter
              (fun e => e.stid == errResult.stid) :=
          List.mem_filter.mpr ⟨hentry, by simp [hstid]⟩
        have hbn : r.getBlockNumber ∈
            (((results.drop (n + 1)).map
              (fun r => (⟨r.block, r.stid⟩ : blockResult))).filter
              (fun e => e.stid == errResult.stid)).map blockResult.getBlockNumber :=
          List.mem_map_of_mem _ hf
        exact List.mem_append.mpr
          (Or.inl (List.mem_reverse.mpr (List.mem_append.mpr (Or.inr hbn))))
      · rw [resultQueue.containsBN, List.any_eq_false]
        intro e he hbeq
        rcases List.mem_append.mp he with h1 | h1
        · obtain ⟨hin, _⟩ := List.mem_filter.mp h1
          have hcon : g.rq.containsBN r.getBlockNumber = true := by
            rw [resultQueue.containsBN, List.any_eq_true]
            exact ⟨e, hin, hbeq⟩
          rw [hfresh2 r hr] at hcon
          exact Bool.noConfusion hcon
        · obtain ⟨hin, hne⟩ := List.mem_filter.mp h1
          obtain ⟨r2, hr2, hre⟩ := List.mem_map.mp hin
          have hbn2 : r2.getBlockNumber = r.getBlockNumber := by
            have hbe : e.getBlockNumber = r.getBlockNumber := by
              exact beq_iff_eq.mp hbeq
            rw [← hre] at hbe
            exact hbe
          have hr2r : r2 = r := List.inj_on_of_nodup_map hnd2 hr2 hr hbn2
          subst hr2r
          have hes : e.stid = errResult.stid := by
            rw [← hre]
            exact hstid
          rw [hes] at hne
          simp at hne
    · intro hstid
      have hf : (⟨r.block, r.stid⟩ : blockResult) ∈
          ((results.drop (n + 1)).map
            (fun r => (⟨r.block, r.stid⟩ : blockResult))).filter
            (fun e => e.stid != errResult.stid) :=
        List.mem_filter.mpr ⟨hentry, by simpa [bne_iff_ne] using hstid⟩
      rw [resultQueue.containsBN, List.any_eq_true]
      exact ⟨⟨r.block, r.stid⟩, List.mem_append.mpr (Or.inr hf), by
        simp [blockResult.getBlockNumber]⟩

/-- Concrete manager state for the C4 witness: one queued entry from
stream "s1" at height 8, heights 5-7 in `processing`. -/
def gC4 : V2.getBlocksManager :=
  { curHeight := 0, targetBN := 20, requesting := [], processing := [5, 6, 7],
    retries := ⟨[]⟩, rq := ⟨[⟨⟨8, 80, 79⟩, "s1"⟩]⟩, resultC := false }

/-- Concrete results for the C4 witness: an inserted block from "s2", the
offender from "s1", and an abandoned block from "s2". -/
def rC4 : List blockResult :=
  [⟨⟨5, 50, 49⟩, "s2"⟩, ⟨⟨6, 60, 59⟩, "s1"⟩, ⟨⟨7, 70, 69⟩, "s2"⟩]

/-- The state produced by `HandleInsertError gC4 rC4 1`. -/
def gC4res : V2.getBlocksManager :=
  { curHeight := 0, targetBN := 20, requesting := [], processing := [7],
    retries := ⟨[8, 6]⟩, rq := ⟨[⟨⟨7, 70, 69⟩, "s2"⟩]⟩, resultC := false }

/-- Witness for C4's amended theorem at a concrete input. -/
theorem handleInsertError_amended_witness :
    5 ∉ gC4res.processing ∧ 6 ∈ gC4res.retries.elems
    ∧ gC4res.rq.containsBN 7 = true := by
  have h := handleInsertError_amended gC4 rC4 1 gC4res ⟨⟨6, 60, 59⟩, "s1"⟩
    (by decide) (by decide) (by decide) (by decide)
  exact ⟨h.1 ⟨⟨5, 50, 49⟩, "s2"⟩ (by decide), h.2.2.1,
    (h.2.2.2.2.2 ⟨⟨7, 70, 69⟩, "s2"⟩ (by decide)).2 (by decide)⟩
